import Mathlib

/-!
Verification development for the KeyScribe audio-to-note analysis engine
(src/utils/audioAnalysis.ts).

The TypeScript module is shallowly embedded here:
* JavaScript numbers holding times, durations, rates and weights are
  modelled as rationals; audio samples, frequencies and clarity scores
  (which flow through square roots and logarithms) are modelled as reals.
* JavaScript Math.round is modelled by the round-half-up function round,
  Math.floor by the floor function, and Math.min / Math.max by min / max.
* The external pitch-detection capability (the pitchy PitchDetector) is an
  arbitrary function from a sample frame and a sample rate to a
  (frequency, clarity) pair.
* The decoding step, which is the only step of analyzeAudio that can fail
  for a well-formed buffer, is modelled as an Except value handed to the
  pipeline; the catch block of analyzeAudio maps any error to the safe
  default result.
-/

/-- A detected musical note, mirroring the Note interface of the source. -/
structure Note where
  pitch : String
  startTime : ℚ
  duration : ℚ
  velocity : ℤ
deriving DecidableEq, Repr

/-- The final analysis result, mirroring AudioAnalysisResult of the source. -/
structure AudioAnalysisResult where
  tempo : ℤ
  key : String
  timeSignature : String
  notes : List Note
  truncated : Bool
deriving DecidableEq, Repr

/-- The chromatic note-name table NOTE_NAMES of the source (one literal
list there; written in two halves here). -/
def NOTE_NAMES : List String :=
  ["C", "C#", "D", "D#", "E", "F"] ++ ["F#", "G", "G#", "A", "A#", "B"]

/-- MAX_DURATION_SECONDS of the source. -/
def MAX_DURATION_SECONDS : ℚ := 60

/-- MIN_NOTE_DURATION_SECONDS of the source (the 0.12 s pipeline filter floor). -/
def MIN_NOTE_DURATION_SECONDS : ℚ := 12/100

/-- Krumhansl-Schmuckler major profile of the source. -/
def majorProfile : List ℚ :=
  [635/100, 223/100, 348/100, 233/100, 438/100, 409/100,
   252/100, 519/100, 239/100, 366/100, 229/100, 288/100]

/-- Krumhansl-Schmuckler minor profile of the source. -/
def minorProfile : List ℚ :=
  [633/100, 268/100, 352/100, 538/100, 260/100, 353/100,
   254/100, 475/100, 398/100, 269/100, 334/100, 317/100]

/-- The normalizeProfile helper of the source: divide each entry by the sum
(or map to zero when the sum is zero). -/
def normalizeProfile (profile : List ℚ) : List ℚ :=
  let sum := profile.foldl (fun acc val => acc + val) 0
  profile.map (fun val => if sum = 0 then 0 else val / sum)

/-- The normalizedMajorProfile constant of the source. -/
def normalizedMajorProfile : List ℚ := normalizeProfile majorProfile

/-- The normalizedMinorProfile constant of the source. -/
def normalizedMinorProfile : List ℚ := normalizeProfile minorProfile

/-- The median helper of the source, polymorphic over the rationals (tempo
estimation) and the reals (frequency smoothing): sort a copy, then take the
middle element, or the mean of the two middle elements for even length. -/
def median {α : Type} [LinearOrder α] [Field α] [DecidableRel ((· ≤ ·) : α → α → Prop)]
    (values : List α) : α :=
  if values.length = 0 then 0 else
  let sorted := values.mergeSort (fun a b => decide (a ≤ b))
  let mid := values.length / 2
  if values.length % 2 ≠ 0 then sorted.getD mid 0
  else (sorted.getD (mid - 1) 0 + sorted.getD mid 0) / 2

/-- The calculateRMS helper of the source: square root of the mean square,
with the zero-length buffer treated as length one. -/
noncomputable def calculateRMS (buffer : List ℝ) : ℝ :=
  Real.sqrt ((buffer.map (fun x => x * x)).foldl (fun acc x => acc + x) 0 /
    (max buffer.length 1))

/-- JavaScript String.prototype.trim, used by the pipeline note filter:
drop whitespace from both ends of the string. -/
def jsTrim (s : String) : String :=
  String.mk (((s.data.dropWhile Char.isWhitespace).reverse.dropWhile
    Char.isWhitespace).reverse)

/-- The frequencyToNoteName helper of the source (the PitchNamer of the
spec): reject frequencies at or below 10 Hz, round the fractional MIDI
number, reject pitches outside the 88-key range 21..108 or more than
50 cents away from the rounded pitch, and otherwise render the note name
from NOTE_NAMES plus the octave. -/
noncomputable def frequencyToNoteName (frequency : ℝ) : String :=
  if frequency ≤ 10 then "" else
  let midiNumber : ℝ := 12 * Real.logb 2 (frequency / 440) + 69
  let roundedMidi : ℤ := round midiNumber
  if roundedMidi < 21 ∨ 108 < roundedMidi then "" else
  let m : ℕ := roundedMidi.toNat
  let centsDeviation : ℝ :=
    1200 * Real.logb 2 (frequency / (440 * (2:ℝ) ^ (((roundedMidi : ℝ) - 69) / 12)))
  if 50 < |centsDeviation| then "" else
  NOTE_NAMES.getD (m % 12) "" ++ toString (m / 12 - 1)

/-- The createSyntheticNotes fallback of the source: an ascending C-major
scale pattern, one note every 0.5 s with a 0.9 duty cycle and velocity 80,
with at least 8 notes. -/
def createSyntheticNotes (duration : ℚ) : List Note :=
  let pitches : List String := ["C4", "D4", "E4", "F4", "G4", "A4", "B4", "C5"]
  let noteDuration : ℚ := 1/2
  let noteCount : ℕ := max 8 (⌊duration / noteDuration⌋.toNat)
  (List.range noteCount).map (fun i =>
    { pitch := pitches.getD (i % pitches.length) ""
      startTime := (i : ℚ) * noteDuration
      duration := noteDuration * (9/10)
      velocity := 80 })

/-- A decoded audio buffer: per-channel sample data, the sample rate and the
per-channel sample count (the AudioBuffer length field). -/
structure AudioBuffer where
  channels : List (List ℝ)
  sampleRate : ℚ
  length : ℕ
deriving Inhabited

/-- The duration accessor of a Web Audio AudioBuffer: length over sample rate. -/
def AudioBuffer.duration (b : AudioBuffer) : ℚ := (b.length : ℚ) / b.sampleRate

/-- The truncateAudioBuffer helper of the source: keep the first
floor(duration * sampleRate) samples of every channel. -/
def truncateAudioBuffer (buffer : AudioBuffer) (duration : ℚ) : AudioBuffer :=
  let newLength : ℕ := (⌊duration * buffer.sampleRate⌋).toNat
  { channels := buffer.channels.map (fun ch => ch.take newLength)
    sampleRate := buffer.sampleRate
    length := newLength }

/-- The mixDownToMono helper of the source. The null return of the source
occurs only when the buffer object itself is absent, which cannot happen for
a decoded buffer value, so the embedding is total: a single channel is
passed through, several channels are averaged per sample. -/
noncomputable def mixDownToMono (audioBuffer : AudioBuffer) : List ℝ :=
  let numChannels := audioBuffer.channels.length
  if numChannels = 1 then audioBuffer.channels.getD 0 []
  else
    (List.range audioBuffer.length).map (fun i =>
      ((audioBuffer.channels.map (fun ch => ch.getD i 0)).foldl
        (fun acc x => acc + x) 0) / numChannels)

/-- The merge pass of analyzeAudio (step 7 of the orchestration): walk the
sorted list once; when the gap from the end of a note to the start of the
next is over 0.05 s keep the note, when the next note has the same pitch
and the gap is under 0.05 s extend the note to cover the next one and skip
it, and otherwise keep the note. -/
def mergeNotes : List Note → List Note
  | [] => []
  | [n] => [n]
  | n1 :: n2 :: rest =>
    if n2.startTime - (n1.startTime + n1.duration) > 5/100 then
      n1 :: mergeNotes (n2 :: rest)
    else if n2.pitch = n1.pitch ∧ n2.startTime - (n1.startTime + n1.duration) < 5/100 then
      { n1 with duration := n2.startTime + n2.duration - n1.startTime } :: mergeNotes rest
    else
      n1 :: mergeNotes (n2 :: rest)

/-- The note currently being tracked by the detectNotes state machine: the
currentNote object of the source before its duration is known. -/
structure CurrentNote where
  pitch : String
  startTime : ℚ
  velocity : ℤ
deriving DecidableEq, Repr

/-- The mutable locals of the detectNotes loop of the source. -/
structure DetectState where
  notes : List Note
  currentNote : Option CurrentNote
  lastPitchName : String
  consecutiveFramesCount : ℕ
  potentialNoteStart : Option ℚ
  recentFrequencies : List ℝ

/-- The initial detectNotes loop state. -/
def initDetectState : DetectState :=
  { notes := [], currentNote := none, lastPitchName := "",
    consecutiveFramesCount := 0, potentialNoteStart := none,
    recentFrequencies := [] }

/-- The note-closing step that appears three times in detectNotes: when a
confirmed note is active (stable for at least 3 frames), close it at the
given end time and keep it only when its duration reaches the 0.07 s
detector floor. -/
def closeNote (notes : List Note) (currentNote : Option CurrentNote)
    (consecutiveFramesCount : ℕ) (endTime : ℚ) : List Note :=
  match currentNote with
  | none => notes
  | some cn =>
    if 3 ≤ consecutiveFramesCount then
      if 7/100 ≤ endTime - cn.startTime then
        notes ++ [{ pitch := cn.pitch, startTime := cn.startTime,
                    duration := endTime - cn.startTime, velocity := cn.velocity }]
      else notes
    else notes

/-- One advance of the detectNotes stability state machine (the part of the
loop body after the frame's note name, clarity gate and velocity have been
computed); rf is the updated frequency-smoothing window. -/
def stateStep (time : ℚ) (noteName : String) (confident : Bool) (velocity : ℤ)
    (rf : List ℝ) (s : DetectState) : DetectState :=
  if noteName ≠ "" ∧ confident = true then
    let s1 : DetectState :=
      if noteName = s.lastPitchName then
        { s with consecutiveFramesCount := s.consecutiveFramesCount + 1,
                 recentFrequencies := rf }
      else
        { notes := closeNote s.notes s.currentNote s.consecutiveFramesCount time
          currentNote := none
          lastPitchName := noteName
          consecutiveFramesCount := 1
          potentialNoteStart := some time
          recentFrequencies := rf }
    match s1.consecutiveFramesCount, s1.potentialNoteStart with
    | 3, some ps =>
      { s1 with currentNote := some ⟨noteName, ps, velocity⟩ }
    | _, _ =>
      match s1.currentNote with
      | some cn =>
        { s1 with currentNote := some ⟨cn.pitch, cn.startTime, max cn.velocity velocity⟩ }
      | none => s1
  else
    { notes := closeNote s.notes s.currentNote s.consecutiveFramesCount time
      currentNote := none
      lastPitchName := ""
      consecutiveFramesCount := 0
      potentialNoteStart := none
      recentFrequencies := [] }

/-- One full iteration of the detectNotes loop at sample index i: silence
gate, external pitch detection, median smoothing, naming, velocity, then the
state machine. -/
noncomputable def processFrame (monoBufferData : List ℝ) (sampleRate : ℚ)
    (findPitch : List ℝ → ℚ → ℝ × ℝ) (overallRMS : ℝ)
    (s : DetectState) (i : ℕ) : DetectState :=
  let frame := (monoBufferData.drop i).take 2048
  let time : ℚ := (i : ℚ) / sampleRate
  let frameRMS := calculateRMS frame
  let fc : ℝ × ℝ :=
    if overallRMS * (8/100) < frameRMS then findPitch frame sampleRate else (0, 0)
  let rf1 := s.recentFrequencies ++ [if 0 < fc.1 then fc.1 else 0]
  let rf := if 3 < rf1.length then rf1.tail else rf1
  let noteName := frequencyToNoteName (median rf)
  let velocity : ℤ :=
    min 127 (max 0 (round (frameRMS / (overallRMS + 1/1000000) * 90 + 30)))
  stateStep time noteName (decide ((88/100 : ℝ) ≤ fc.2)) velocity rf s

/-- The sample indices at which detectNotes analyzes a frame: steps of 441
samples while a full 2048-sample frame remains. -/
def noteFrameStarts (len : ℕ) : List ℕ :=
  (List.range (if len < 2048 then 0 else (len - 2048) / 441 + 1)).map (fun k => k * 441)

/-- The detectNotes function of the source (the NoteDetector of the spec). -/
noncomputable def detectNotes (monoBufferData : List ℝ) (sampleRate : ℚ)
    (findPitch : List ℝ → ℚ → ℝ × ℝ) : List Note :=
  let overallRMS := calculateRMS monoBufferData
  let st := (noteFrameStarts monoBufferData.length).foldl
    (processFrame monoBufferData sampleRate findPitch overallRMS) initDetectState
  closeNote st.notes st.currentNote st.consecutiveFramesCount
    ((monoBufferData.length : ℚ) / sampleRate)

/-- The sample indices at which detectTempo analyzes a frame: steps of 256
samples while a full 1024-sample frame remains. -/
def tempoFrameStarts (len : ℕ) : List ℕ :=
  (List.range (if len < 1024 then 0 else (len - 1024) / 256 + 1)).map (fun k => k * 256)

/-- The onset-detection loop of detectTempo: a frame is an onset when its
RMS exceeds 1.5 times the previous frame's RMS, 1.1 times the local
10-frame moving average, and the absolute floor 0.01. -/
noncomputable def onsetTimes (buffer : List ℝ) (sampleRate : ℚ) : List ℚ :=
  ((tempoFrameStarts buffer.length).foldl
    (fun (st : ℝ × List ℝ × List ℚ) i =>
      let frame := (buffer.drop i).take 1024
      let currentRMS := calculateRMS frame
      let hist1 := st.2.1 ++ [currentRMS]
      let hist := if 10 < hist1.length then hist1.tail else hist1
      let localAverageRMS := (hist.foldl (fun acc x => acc + x) 0) / (hist.length : ℝ)
      let onsets :=
        if st.1 * (3/2) < currentRMS ∧ localAverageRMS * (11/10) < currentRMS ∧
            (1/100 : ℝ) < currentRMS then
          st.2.2 ++ [(i : ℚ) / sampleRate]
        else st.2.2
      (currentRMS, hist, onsets))
    ((0 : ℝ), ([] : List ℝ), ([] : List ℚ))).2.2

/-- The inter-onset-interval candidate collection of detectTempo: for each
consecutive onset pair keep the interval, its double and its half whenever
the value lies in the beat-period band from 60/180 s to 60/60 s. -/
def ioiCandidates (onsets : List ℚ) : List ℚ :=
  (onsets.zip onsets.tail).flatMap (fun p =>
    let ioi := p.2 - p.1
    (if 60/180 ≤ ioi ∧ ioi ≤ 60/60 then [ioi] else []) ++
    (if 60/180 ≤ ioi * 2 ∧ ioi * 2 ≤ 60/60 then [ioi * 2] else []) ++
    (if 60/180 ≤ ioi / 2 ∧ ioi / 2 ≤ 60/60 then [ioi / 2] else []))

/-- The detectTempo function of the source (the TempoEstimator of the
spec): default 120 BPM on fewer than 10 onsets or fewer than 5 surviving
candidates, otherwise 60 over the median candidate, rounded and clamped to
the band 60..180. -/
noncomputable def detectTempo (buffer : List ℝ) (sampleRate : ℚ) : ℤ :=
  let onsets := onsetTimes buffer sampleRate
  if onsets.length < 10 then 120 else
  let iois := ioiCandidates onsets
  if iois.length < 5 then 120 else
  let sortedIois := iois.mergeSort (fun a b => decide (a ≤ b))
  let medianIOI := median sortedIois
  if medianIOI = 0 then 120 else
  max 60 (min 180 (round (60 / medianIOI)))

/-- The pitch-class extraction regex of detectKey: the leading letter A..G
with an optional sharp. -/
def pitchClassMatch (s : String) : Option String :=
  match s.data with
  | [] => none
  | c :: rest =>
    if 'A' ≤ c ∧ c ≤ 'G' then
      some (match rest with
        | '#' :: _ => String.mk [c, '#']
        | _ => String.mk [c])
    else none

/-- The pitchClasses lookup of detectKey, built from NOTE_NAMES: the index
of a pitch-class name, or none for names such as E# that are not in the
table. -/
def pitchClassIndex (pitchName : String) : Option ℕ :=
  NOTE_NAMES.findIdx? (fun name => name = pitchName)

/-- The histogram weight of one note in detectKey: duration times
(0.5 + velocity / 254). -/
def noteWeight (note : Note) : ℚ :=
  note.duration * (1/2 + (note.velocity : ℚ) / 254)

/-- The pitch class of a note as used by detectKey, or none for notes that
are skipped (empty pitch, no regex match, or a name outside NOTE_NAMES). -/
def noteClass (note : Note) : Option ℕ :=
  if note.pitch = "" then none
  else (pitchClassMatch note.pitch).bind pitchClassIndex

/-- One bin of the pitchCounts histogram of detectKey: the summed weight of
the notes falling in that pitch class. -/
def pitchCount (notes : List Note) (j : ℕ) : ℚ :=
  ((notes.filter (fun note => noteClass note = some j)).map noteWeight).foldl
    (fun acc x => acc + x) 0

/-- The totalDuration accumulator of detectKey: the summed weight of all
notes with a recognized pitch class. -/
def totalWeight (notes : List Note) : ℚ :=
  ((notes.filter (fun note => (noteClass note).isSome)).map noteWeight).foldl
    (fun acc x => acc + x) 0

/-- The correlation of the normalized histogram with the major or minor
profile rotated to the given root, as computed inside the detectKey loop. -/
def keyCorrelation (notes : List Note) (root : ℕ) (isMajor : Bool) : ℚ :=
  let profile := if isMajor then normalizedMajorProfile else normalizedMinorProfile
  ((List.range 12).map (fun j =>
    (pitchCount notes j / totalWeight notes) * profile.getD ((j + 12 - root) % 12) 0)).foldl
    (fun acc x => acc + x) 0

/-- The best-key loop of detectKey: for each root 0..11 check the major
correlation and then the minor correlation against the running maximum,
which starts at negative infinity with best root 0 major. -/
def keyLoop (corr : ℕ → Bool → ℚ) : WithBot ℚ × ℕ × Bool :=
  (List.range 12).foldl
    (fun st i =>
      let st1 := if (corr i true : WithBot ℚ) > st.1 then ((corr i true : WithBot ℚ), i, true) else st
      if (corr i false : WithBot ℚ) > st1.1 then ((corr i false : WithBot ℚ), i, false) else st1)
    (⊥, 0, true)

/-- The detectKey function of the source (the KeyEstimator of the spec). -/
def detectKey (notes : List Note) : String :=
  if notes.length = 0 then "N/A" else
  if totalWeight notes = 0 then "N/A" else
  let best := keyLoop (keyCorrelation notes)
  NOTE_NAMES.getD best.2.1 "" ++ " " ++ (if best.2.2 then "Major" else "Minor")

/-- JavaScript truncation toward zero of a rational, used to model the
remainder operator. -/
def jsTrunc (q : ℚ) : ℤ := if 0 ≤ q then ⌊q⌋ else ⌈q⌉

/-- The JavaScript remainder operator on numbers: the sign follows the
dividend. -/
def jsMod (a b : ℚ) : ℚ := a - b * (jsTrunc (a / b) : ℚ)

/-- The detectTimeSignature function of the source: score note starts
against simple-time and compound-time subdivisions and answer 6/8 only when
the compound score clearly wins. -/
def detectTimeSignature (notes : List Note) (tempo : ℚ) : String :=
  if notes.length < 5 ∨ tempo ≤ 0 then "4/4" else
  let beatDuration := 60 / tempo
  let tolerance := beatDuration * (2/10)
  let scores := notes.foldl
    (fun (sc : ℚ × ℚ) note =>
      let t := note.startTime
      let common1 := if jsMod t beatDuration < tolerance ∨
          jsMod t beatDuration > beatDuration - tolerance then sc.1 + 1 else sc.1
      let halfBeat := beatDuration / 2
      let common2 := if jsMod t halfBeat < tolerance ∨
          jsMod t halfBeat > halfBeat - tolerance then common1 + 1/2 else common1
      let dottedQuarter := beatDuration * (3/2)
      let compound1 := if jsMod t dottedQuarter < tolerance ∨
          jsMod t dottedQuarter > dottedQuarter - tolerance then sc.2 + 1 else sc.2
      let eighthNote := beatDuration / 2
      let compound2 := if jsMod t (eighthNote * 3) < tolerance ∨
          jsMod t (eighthNote * 3) > eighthNote * 3 - tolerance then compound1 + 1/2
        else compound1
      (common2, compound2))
    ((0 : ℚ), (0 : ℚ))
  if scores.2 > scores.1 * (11/10) then "6/8" else "4/4"

/-- The note filter of analyzeAudio: drop notes shorter than 0.12 s and
notes whose pitch is missing or blank. -/
def filterNotes (notes : List Note) : List Note :=
  notes.filter (fun note =>
    if note.duration < MIN_NOTE_DURATION_SECONDS then false
    else if note.pitch = "" ∨ jsTrim note.pitch = "" then false
    else true)

/-- The note sort of analyzeAudio: by start time ascending (a stable sort,
as JavaScript Array.prototype.sort is). -/
def sortNotes (notes : List Note) : List Note :=
  notes.mergeSort (fun a b => decide (a.startTime ≤ b.startTime))

/-- The processedBuffer local of analyzeAudio: the decoded buffer,
truncated to 60 s when it is longer. -/
def processedBuffer (originalAudioBuffer : AudioBuffer) : AudioBuffer :=
  if originalAudioBuffer.duration > MAX_DURATION_SECONDS then
    truncateAudioBuffer originalAudioBuffer MAX_DURATION_SECONDS
  else originalAudioBuffer

/-- The notes local of analyzeAudio: the detected notes, or the synthetic
fallback for the processed buffer's duration when detection finds none. -/
noncomputable def pipelineNotes (originalAudioBuffer : AudioBuffer)
    (findPitch : List ℝ → ℚ → ℝ × ℝ) : List Note :=
  let detected := detectNotes (mixDownToMono (processedBuffer originalAudioBuffer))
    (processedBuffer originalAudioBuffer).sampleRate findPitch
  if detected.length = 0 then
    createSyntheticNotes (processedBuffer originalAudioBuffer).duration
  else detected

/-- The tempo local of analyzeAudio. -/
noncomputable def pipelineTempo (originalAudioBuffer : AudioBuffer) : ℤ :=
  detectTempo (mixDownToMono (processedBuffer originalAudioBuffer))
    (processedBuffer originalAudioBuffer).sampleRate

/-- The body of analyzeAudio after decoding, from the truncation check to
the packaged result: the whole non-error path of the pipeline. The early
return of the source taken when filtering empties the list packages the
same tempo, key, time-signature and truncated fields as the final return,
so the two returns are folded into a single record whose notes field
selects between the synthetic fallback and the merged list. -/
noncomputable def analyzeBody (originalAudioBuffer : AudioBuffer)
    (findPitch : List ℝ → ℚ → ℝ × ℝ) : AudioAnalysisResult :=
  let notes := pipelineNotes originalAudioBuffer findPitch
  let tempo := pipelineTempo originalAudioBuffer
  let timeSignature := detectTimeSignature notes (tempo : ℚ)
  let finalNotes := filterNotes notes
  { tempo := max 60 (round ((tempo : ℚ)))
    key := detectKey notes
    timeSignature := if timeSignature = "" then "4/4" else timeSignature
    notes :=
      if finalNotes.length = 0 then
        createSyntheticNotes (processedBuffer originalAudioBuffer).duration
      else mergeNotes (sortNotes finalNotes)
    truncated := decide (originalAudioBuffer.duration > MAX_DURATION_SECONDS) }

/-- The safe default result built by the catch block of analyzeAudio. -/
def safeDefaultResult : AudioAnalysisResult :=
  { tempo := 120
    key := "C Major"
    timeSignature := "4/4"
    notes := createSyntheticNotes 5
    truncated := false }

/-- The analyzeAudio function of the source: run the pipeline body on the
decoded buffer, and convert any failure into the safe default result rather
than propagating it. -/
noncomputable def analyzeAudio (decoded : Except String AudioBuffer)
    (findPitch : List ℝ → ℚ → ℝ × ℝ) : AudioAnalysisResult :=
  match decoded with
  | Except.ok buf => analyzeBody buf findPitch
  | Except.error _ => safeDefaultResult

/-- The ordering relation of the sort step: start time ascending. -/
def startLe (a b : Note) : Prop := a.startTime ≤ b.startTime

theorem mergeNotes_ne_nil : ∀ l : List Note, l ≠ [] → mergeNotes l ≠ [] := by
  intro l hl
  match l with
  | [] => exact absurd rfl hl
  | [n] => simp [mergeNotes]
  | n1 :: n2 :: rest =>
    unfold mergeNotes
    split
    · simp
    · split <;> simp

theorem mergeNotes_mem : ∀ l : List Note, ∀ m ∈ mergeNotes l,
    ∃ n ∈ l, m.startTime = n.startTime ∧ m.pitch = n.pitch := by
  intro l
  induction l using mergeNotes.induct with
  | case1 => simp [mergeNotes]
  | case2 n => intro m hm; simp [mergeNotes] at hm; exact ⟨n, by simp [hm]⟩
  | case3 n1 n2 rest hgap ih =>
    intro m hm
    rw [mergeNotes, if_pos hgap] at hm
    rcases List.mem_cons.1 hm with h | h
    · exact ⟨n1, List.mem_cons_self _ _, by simp [h]⟩
    · obtain ⟨n, hn, he⟩ := ih m h
      exact ⟨n, List.mem_cons_of_mem _ hn, he⟩
  | case4 n1 n2 rest hgap hmerge ih =>
    intro m hm
    rw [mergeNotes, if_neg hgap, if_pos hmerge] at hm
    rcases List.mem_cons.1 hm with h | h
    · exact ⟨n1, List.mem_cons_self _ _, by simp [h]⟩
    · obtain ⟨n, hn, he⟩ := ih m h
      exact ⟨n, List.mem_cons_of_mem _ (List.mem_cons_of_mem _ hn), he⟩
  | case5 n1 n2 rest hgap hmerge ih =>
    intro m hm
    rw [mergeNotes, if_neg hgap, if_neg hmerge] at hm
    rcases List.mem_cons.1 hm with h | h
    · exact ⟨n1, List.mem_cons_self _ _, by simp [h]⟩
    · obtain ⟨n, hn, he⟩ := ih m h
      exact ⟨n, List.mem_cons_of_mem _ hn, he⟩

theorem mergeNotes_sorted : ∀ l : List Note, List.Sorted startLe l →
    List.Sorted startLe (mergeNotes l) := by
  intro l
  induction l using mergeNotes.induct with
  | case1 => simp [mergeNotes]
  | case2 n => simp [mergeNotes]
  | case3 n1 n2 rest hgap ih =>
    intro hs
    rw [mergeNotes, if_pos hgap]
    rw [List.sorted_cons] at hs ⊢
    refine ⟨?_, ih hs.2⟩
    intro m hm
    obtain ⟨n, hn, he, _⟩ := mergeNotes_mem _ m hm
    have := hs.1 n hn
    simp only [startLe] at this ⊢
    rw [he]
    exact this
  | case4 n1 n2 rest hgap hmerge ih =>
    intro hs
    rw [mergeNotes, if_neg hgap, if_pos hmerge]
    rw [List.sorted_cons] at hs ⊢
    have hs2 := hs.2
    rw [List.sorted_cons] at hs2
    refine ⟨?_, ih hs2.2⟩
    intro m hm
    obtain ⟨n, hn, he, _⟩ := mergeNotes_mem _ m hm
    have h1 := hs.1 n (List.mem_cons_of_mem _ hn)
    simp only [startLe] at h1 ⊢
    rw [he]
    exact h1
  | case5 n1 n2 rest hgap hmerge ih =>
    intro hs
    rw [mergeNotes, if_neg hgap, if_neg hmerge]
    rw [List.sorted_cons] at hs ⊢
    refine ⟨?_, ih hs.2⟩
    intro m hm
    obtain ⟨n, hn, he, _⟩ := mergeNotes_mem _ m hm
    have h1 := hs.1 n hn
    simp only [startLe] at h1 ⊢
    rw [he]
    exact h1

theorem mergeNotes_duration_pitch : ∀ l : List Note, List.Sorted startLe l →
    (∀ n ∈ l, MIN_NOTE_DURATION_SECONDS ≤ n.duration ∧ n.pitch ≠ "") →
    ∀ m ∈ mergeNotes l, MIN_NOTE_DURATION_SECONDS ≤ m.duration ∧ m.pitch ≠ ""
  | [] => by simp [mergeNotes]
  | [n] => by
    intro _ hp m hm
    simp [mergeNotes] at hm
    subst hm
    exact hp m (by simp)
  | n1 :: n2 :: rest => by
    intro hs hp m hm
    rw [mergeNotes] at hm
    split at hm
    · rcases List.mem_cons.1 hm with h | h
      · subst h; exact hp m (by simp)
      · exact mergeNotes_duration_pitch (n2 :: rest) hs.of_cons
          (fun n hn => hp n (List.mem_cons_of_mem _ hn)) m h
    · split at hm
      · rcases List.mem_cons.1 hm with h | h
        · subst h
          constructor
          · have h12 : n1.startTime ≤ n2.startTime := by
              rw [List.sorted_cons] at hs
              exact hs.1 n2 (by simp)
            have hd2 := (hp n2 (by simp)).1
            show MIN_NOTE_DURATION_SECONDS ≤ n2.startTime + n2.duration - n1.startTime
            calc MIN_NOTE_DURATION_SECONDS ≤ n2.duration := hd2
              _ ≤ n2.startTime + n2.duration - n1.startTime := by linarith
          · exact (hp n1 (by simp)).2
        · exact mergeNotes_duration_pitch rest hs.of_cons.of_cons
            (fun n hn => hp n (List.mem_cons_of_mem _ (List.mem_cons_of_mem _ hn))) m h
      · rcases List.mem_cons.1 hm with h | h
        · subst h; exact hp m (by simp)
        · exact mergeNotes_duration_pitch (n2 :: rest) hs.of_cons
            (fun n hn => hp n (List.mem_cons_of_mem _ hn)) m h

/-- The adjacent-pair relation under which the merge pass leaves a note
list untouched: the next note never continues the previous one (same pitch
with a gap under 0.05 s). -/
def NotMergeable (a b : Note) : Prop :=
  ¬(b.pitch = a.pitch ∧ b.startTime - (a.startTime + a.duration) < 5/100)

/-- Claim C4 (counterexample). The merge pass is not idempotent: on three
0.1 s A4 notes each 20 ms apart, one pass merges only the first two notes,
leaving a new mergeable adjacent pair, so a second pass merges further. -/
theorem mergeNotes_not_idempotent :
    mergeNotes (mergeNotes
      [⟨"A4", 0, 1/10, 80⟩, ⟨"A4", 12/100, 1/10, 80⟩, ⟨"A4", 24/100, 1/10, 80⟩]) ≠
    mergeNotes [⟨"A4", 0, 1/10, 80⟩, ⟨"A4", 12/100, 1/10, 80⟩, ⟨"A4", 24/100, 1/10, 80⟩] := by
  norm_num [mergeNotes]

/-- Claim C4 (amended). A single merge pass is the identity exactly on note
lists with no mergeable adjacent pair (identical pitch and a gap under
50 ms); the output of one merge pass need not have this shape, so applying
the pass to its own output is not a no-op in general. -/
theorem mergeNotes_noop_of_notMergeable (l : List Note)
    (h : List.Chain' NotMergeable l) : mergeNotes l = l := by
  induction l using mergeNotes.induct with
  | case1 => simp [mergeNotes]
  | case2 n => simp [mergeNotes]
  | case3 n1 n2 rest hgap ih =>
    rw [mergeNotes, if_pos hgap]
    rw [ih (List.Chain'.tail h)]
  | case4 n1 n2 rest hgap hmerge ih =>
    exfalso
    have := (List.chain'_cons.1 h).1
    exact this hmerge
  | case5 n1 n2 rest hgap hmerge ih =>
    rw [mergeNotes, if_neg hgap, if_neg hmerge]
    rw [ih (List.Chain'.tail h)]

/-- Witness for the amended claim C4 at a concrete two-note list. -/
theorem mergeNotes_noop_of_notMergeable_witness :
    List.Chain' NotMergeable [⟨"C4", 0, 1/10, 80⟩, ⟨"D4", 1, 1/10, 80⟩] ∧
    mergeNotes [⟨"C4", 0, 1/10, 80⟩, ⟨"D4", 1, 1/10, 80⟩] =
      [⟨"C4", 0, 1/10, 80⟩, ⟨"D4", 1, 1/10, 80⟩] := by
  have h : List.Chain' NotMergeable [⟨"C4", 0, 1/10, 80⟩, ⟨"D4", 1, 1/10, 80⟩] := by
    simp [List.chain'_cons, NotMergeable]
  exact ⟨h, mergeNotes_noop_of_notMergeable _ h⟩

/-- Claim C2. Any failure of the pipeline body is converted at the
analyzeAudio boundary into the safe default result: 120 BPM, C Major, 4/4,
a non-empty synthetic note sequence and the truncated flag cleared; the
caller always receives a result. -/
theorem analyzeAudio_error_safe (e : String) (findPitch : List ℝ → ℚ → ℝ × ℝ) :
    analyzeAudio (Except.error e) findPitch = safeDefaultResult ∧
    safeDefaultResult.tempo = 120 ∧
    safeDefaultResult.key = "C Major" ∧
    safeDefaultResult.timeSignature = "4/4" ∧
    safeDefaultResult.notes = createSyntheticNotes 5 ∧
    safeDefaultResult.notes ≠ [] ∧
    safeDefaultResult.truncated = false := by
  refine ⟨rfl, rfl, rfl, rfl, rfl, ?_, rfl⟩
  have hlen : (createSyntheticNotes 5).length = 10 := by
    simp only [createSyntheticNotes, List.length_map, List.length_range]
    have h10 : (⌊(5:ℚ) / (1/2)⌋ : ℤ) = 10 := by norm_num
    rw [h10]
    rfl
  intro hnil
  have h0 : (createSyntheticNotes 5).length = 0 := by
    rw [show createSyntheticNotes 5 = safeDefaultResult.notes from rfl, hnil]
    rfl
  omega

theorem mem_ioiCandidates {onsets : List ℚ} {x : ℚ} (hx : x ∈ ioiCandidates onsets) :
    60/180 ≤ x ∧ x ≤ 60/60 := by
  rw [ioiCandidates, List.mem_flatMap] at hx
  obtain ⟨p, _, hx⟩ := hx
  simp only [List.mem_append] at hx
  rcases hx with (hx | hx) | hx <;> split_ifs at hx with hc <;>
    simp only [List.mem_singleton, List.not_mem_nil] at hx <;>
    (subst hx; exact hc)

theorem rat_le_total (a b : ℚ) : (decide (a ≤ b) || decide (b ≤ a)) = true := by
  simp only [Bool.or_eq_true, decide_eq_true_eq]
  exact le_total a b

theorem rat_le_trans (a b c : ℚ) (h1 : decide (a ≤ b) = true) (h2 : decide (b ≤ c) = true) :
    decide (a ≤ c) = true := by
  simp only [decide_eq_true_eq] at h1 h2 ⊢
  exact le_trans h1 h2

theorem le_median {l : List ℚ} (hne : l.length ≠ 0) {c : ℚ} (h : ∀ x ∈ l, c ≤ x) :
    c ≤ median l := by
  rw [median, if_neg hne]
  have hlen : (l.mergeSort (fun a b => decide (a ≤ b))).length = l.length :=
    List.length_mergeSort l
  have hmem : ∀ k, k < l.length →
      c ≤ (l.mergeSort (fun a b => decide (a ≤ b))).getD k 0 := by
    intro k hk
    rw [List.getD_eq_getElem _ _ (by rw [hlen]; exact hk)]
    exact h _ (List.mem_mergeSort.1 (List.getElem_mem _))
  have hmid : l.length / 2 < l.length := Nat.div_lt_self (Nat.pos_of_ne_zero hne) one_lt_two
  split
  · exact hmem _ hmid
  · have h1 := hmem _ hmid
    have h2 := hmem (l.length / 2 - 1) (lt_of_le_of_lt (Nat.sub_le _ _) hmid)
    linarith

theorem median_mergeSort (l : List ℚ) :
    median (l.mergeSort (fun a b => decide (a ≤ b))) = median l := by
  rw [median, median]
  have hlen : (l.mergeSort (fun a b => decide (a ≤ b))).length = l.length :=
    List.length_mergeSort l
  have hself : (l.mergeSort (fun a b => decide (a ≤ b))).mergeSort
      (fun a b => decide (a ≤ b)) = l.mergeSort (fun a b => decide (a ≤ b)) :=
    List.mergeSort_of_sorted (List.sorted_mergeSort rat_le_trans rat_le_total l)
  rw [hlen, hself]

/-- Claim C6. The detectTempo decision structure: default 120 on fewer than
10 onsets or fewer than 5 surviving inter-onset-interval candidates (each
interval, its double and its half, filtered to the band from 60/180 s to
60/60 s), otherwise 60 over the median surviving candidate, rounded and
clamped to 60..180; the zero-median guard of the source never fires on that
path. -/
theorem detectTempo_decision (buffer : List ℝ) (sampleRate : ℚ) :
    detectTempo buffer sampleRate =
      (if (onsetTimes buffer sampleRate).length < 10 then 120 else
       if (ioiCandidates (onsetTimes buffer sampleRate)).length < 5 then 120 else
       max 60 (min 180 (round (60 / median (ioiCandidates (onsetTimes buffer sampleRate)))))) := by
  have hmed : ∀ h : ¬(ioiCandidates (onsetTimes buffer sampleRate)).length < 5,
      (0:ℚ) < median ((ioiCandidates (onsetTimes buffer sampleRate)).mergeSort
        (fun a b => decide (a ≤ b))) := by
    intro h
    rw [median_mergeSort]
    have hne : (ioiCandidates (onsetTimes buffer sampleRate)).length ≠ 0 := by omega
    have := le_median hne (fun x hx => (mem_ioiCandidates hx).1)
    linarith
  simp only [detectTempo]
  split_ifs with h1 h2 h3
  · rfl
  · rfl
  · exact absurd h3 (ne_of_gt (hmed h2))
  · rw [median_mergeSort]

theorem detectTempo_bounds (buffer : List ℝ) (sampleRate : ℚ) :
    60 ≤ detectTempo buffer sampleRate ∧ detectTempo buffer sampleRate ≤ 180 := by
  simp only [detectTempo]
  split_ifs
  · norm_num
  · norm_num
  · norm_num
  · exact ⟨le_max_left _ _, max_le (by norm_num) (min_le_left _ _)⟩

theorem createSyntheticNotes_length (duration : ℚ) :
    (createSyntheticNotes duration).length = max 8 (⌊duration / (1/2)⌋.toNat) := by
  simp [createSyntheticNotes]

theorem createSyntheticNotes_ne_nil (duration : ℚ) : createSyntheticNotes duration ≠ [] := by
  intro h
  have := createSyntheticNotes_length duration
  rw [h] at this
  simp at this
  omega

theorem createSyntheticNotes_mem {duration : ℚ} {n : Note}
    (hn : n ∈ createSyntheticNotes duration) :
    ∃ i < max 8 (⌊duration / (1/2)⌋.toNat),
      n = { pitch := (["C4", "D4", "E4", "F4", "G4", "A4", "B4", "C5"] : List String).getD (i % 8) ""
            startTime := (i : ℚ) * (1/2)
            duration := (1/2) * (9/10)
            velocity := 80 } := by
  simp only [createSyntheticNotes, List.mem_map, List.mem_range] at hn
  obtain ⟨i, hi, he⟩ := hn
  exact ⟨i, hi, he.symm⟩

theorem synthetic_pitches_ne (j : ℕ) (hj : j < 8) :
    (["C4", "D4", "E4", "F4", "G4", "A4", "B4", "C5"] : List String).getD j "" ≠ "" := by
  interval_cases j <;> decide

theorem createSyntheticNotes_props (duration : ℚ) :
    ∀ n ∈ createSyntheticNotes duration,
      MIN_NOTE_DURATION_SECONDS ≤ n.duration ∧ n.pitch ≠ "" := by
  intro n hn
  obtain ⟨i, _, he⟩ := createSyntheticNotes_mem hn
  subst he
  constructor
  · rw [MIN_NOTE_DURATION_SECONDS]; norm_num
  · exact synthetic_pitches_ne _ (Nat.mod_lt _ (by norm_num))

theorem createSyntheticNotes_sorted (duration : ℚ) :
    List.Sorted startLe (createSyntheticNotes duration) := by
  rw [createSyntheticNotes]
  simp only [List.Sorted]
  rw [List.pairwise_map]
  apply List.Pairwise.imp ?_ (List.pairwise_lt_range _)
  intro i j hij
  show (i : ℚ) * (1/2) ≤ (j : ℚ) * (1/2)
  have : (i : ℚ) ≤ (j : ℚ) := by exact_mod_cast le_of_lt hij
  linarith

theorem sortNotes_ne_nil {l : List Note} (h : l.length ≠ 0) : sortNotes l ≠ [] := by
  intro hc
  rw [sortNotes] at hc
  have := @List.length_mergeSort _ (fun a b => decide (a.startTime ≤ b.startTime)) l
  rw [hc] at this
  simp at this
  omega

theorem mergeNotes_sortNotes_ne_nil {l : List Note} (h : ¬l.length = 0) :
    mergeNotes (sortNotes l) ≠ [] :=
  mergeNotes_ne_nil _ (sortNotes_ne_nil h)

theorem analyzeBody_notes_tempo (buffer : AudioBuffer) (findPitch : List ℝ → ℚ → ℝ × ℝ) :
    (analyzeBody buffer findPitch).notes ≠ [] ∧
    60 ≤ (analyzeBody buffer findPitch).tempo ∧
    (analyzeBody buffer findPitch).tempo ≤ 180 := by
  have hb : 60 ≤ pipelineTempo buffer ∧ pipelineTempo buffer ≤ 180 := by
    rw [pipelineTempo]
    exact detectTempo_bounds _ _
  simp only [analyzeBody]
  refine ⟨?_, ?_, ?_⟩
  · split
    · exact createSyntheticNotes_ne_nil _
    · apply mergeNotes_sortNotes_ne_nil
      assumption
  · rw [round_intCast]
    exact le_max_left _ _
  · rw [round_intCast]
    exact max_le (by norm_num) hb.2

/-- Claim C1. For every mono input buffer, on the non-error path, the
analysis result has a non-empty notes list and an integer tempo in the band
60..180, across the synthetic-note fallbacks included. -/
theorem analyze_notes_nonempty_tempo_in_band (samples : List ℝ) (sampleRate : ℚ)
    (findPitch : List ℝ → ℚ → ℝ × ℝ) :
    (analyzeAudio (Except.ok ⟨[samples], sampleRate, samples.length⟩) findPitch).notes ≠ [] ∧
    60 ≤ (analyzeAudio (Except.ok ⟨[samples], sampleRate, samples.length⟩) findPitch).tempo ∧
    (analyzeAudio (Except.ok ⟨[samples], sampleRate, samples.length⟩) findPitch).tempo ≤ 180 :=
  analyzeBody_notes_tempo _ _

theorem filterNotes_mem {l : List Note} {n : Note} (hn : n ∈ filterNotes l) :
    n ∈ l ∧ MIN_NOTE_DURATION_SECONDS ≤ n.duration ∧ n.pitch ≠ "" := by
  rw [filterNotes, List.mem_filter] at hn
  obtain ⟨hmem, hcond⟩ := hn
  refine ⟨hmem, ?_, ?_⟩ <;> split_ifs at hcond with h1 h2
  · exact le_of_not_lt h1
  · intro he
    exact h2 (Or.inl he)

theorem note_le_trans (a b c : Note) (h1 : decide (a.startTime ≤ b.startTime) = true)
    (h2 : decide (b.startTime ≤ c.startTime) = true) :
    decide (a.startTime ≤ c.startTime) = true := by
  simp only [decide_eq_true_eq] at h1 h2 ⊢
  exact le_trans h1 h2

theorem note_le_total (a b : Note) :
    (decide (a.startTime ≤ b.startTime) || decide (b.startTime ≤ a.startTime)) = true := by
  simp only [Bool.or_eq_true, decide_eq_true_eq]
  exact le_total _ _

theorem sortNotes_sorted (l : List Note) : List.Sorted startLe (sortNotes l) := by
  rw [sortNotes]
  have := List.sorted_mergeSort note_le_trans note_le_total l
  exact this.imp (fun h => by simpa [startLe] using h)

theorem sortNotes_mem {l : List Note} {n : Note} (hn : n ∈ sortNotes l) : n ∈ l := by
  rw [sortNotes, List.mem_mergeSort] at hn
  exact hn

theorem analyzeBody_invariants (buffer : AudioBuffer) (findPitch : List ℝ → ℚ → ℝ × ℝ) :
    (∀ n ∈ (analyzeBody buffer findPitch).notes,
      MIN_NOTE_DURATION_SECONDS ≤ n.duration ∧ n.pitch ≠ "") ∧
    List.Sorted startLe (analyzeBody buffer findPitch).notes := by
  simp only [analyzeBody]
  split
  · exact ⟨createSyntheticNotes_props _, createSyntheticNotes_sorted _⟩
  · constructor
    · exact mergeNotes_duration_pitch _ (sortNotes_sorted _)
        (fun n hn => (filterNotes_mem (sortNotes_mem hn)).2)
    · exact mergeNotes_sorted _ (sortNotes_sorted _)

/-- Claim C5. On the non-error path, every note of the final result is at
least 0.12 s long (MIN_NOTE_DURATION_SECONDS) with a non-empty pitch, and
the notes list is sorted by start time ascending; this covers the filter,
sort and merge steps as well as the synthetic fallbacks. -/
theorem analyze_result_note_invariants (samples : List ℝ) (sampleRate : ℚ)
    (findPitch : List ℝ → ℚ → ℝ × ℝ) :
    (∀ n ∈ (analyzeAudio (Except.ok ⟨[samples], sampleRate, samples.length⟩) findPitch).notes,
      MIN_NOTE_DURATION_SECONDS ≤ n.duration ∧ n.pitch ≠ "") ∧
    List.Sorted (fun a b => a.startTime ≤ b.startTime)
      (analyzeAudio (Except.ok ⟨[samples], sampleRate, samples.length⟩) findPitch).notes :=
  analyzeBody_invariants _ _

theorem noteFrameStarts_le {L i : ℕ} (hi : i ∈ noteFrameStarts L) : i + 2048 ≤ L := by
  rw [noteFrameStarts, List.mem_map] at hi
  obtain ⟨k, hk, rfl⟩ := hi
  rw [List.mem_range] at hk
  split at hk
  · omega
  · rename_i hL
    have h1 : k ≤ (L - 2048) / 441 := by omega
    have h2 : k * 441 ≤ L - 2048 := (Nat.le_div_iff_mul_le (by norm_num)).1 h1
    omega

theorem closeNote_mem {notes : List Note} {copt : Option CurrentNote} {c : ℕ} {t : ℚ}
    {m : Note} (hm : m ∈ closeNote notes copt c t) :
    m ∈ notes ∨ ∃ cn, copt = some cn ∧ m.startTime = cn.startTime := by
  rw [closeNote.eq_def] at hm
  split at hm
  · exact Or.inl hm
  · rename_i cn
    split at hm
    · split at hm
      · rcases List.mem_append.1 hm with h | h
        · exact Or.inl h
        · simp only [List.mem_singleton] at h
          subst h
          exact Or.inr ⟨cn, rfl, rfl⟩
      · exact Or.inl hm
    · exact Or.inl hm

/-- All start times tracked by the detector state stay below the bound T. -/
def StartBound (s : DetectState) (T : ℚ) : Prop :=
  (∀ n ∈ s.notes, n.startTime < T) ∧
  (∀ cn, s.currentNote = some cn → cn.startTime < T) ∧
  (∀ ps, s.potentialNoteStart = some ps → ps < T)

theorem closeNote_startLt {notes : List Note} {copt : Option CurrentNote} {c : ℕ}
    {t T : ℚ} (h1 : ∀ n ∈ notes, n.startTime < T)
    (h2 : ∀ cn, copt = some cn → cn.startTime < T) :
    ∀ m ∈ closeNote notes copt c t, m.startTime < T := by
  intro m hm
  rcases closeNote_mem hm with h | ⟨cn, he, hs⟩
  · exact h1 m h
  · rw [hs]
    exact h2 cn he

theorem stateStep_startLt {time : ℚ} {noteName : String} {confident : Bool}
    {velocity : ℤ} {rf : List ℝ} {s : DetectState} {T : ℚ}
    (ht : time < T) (hs : StartBound s T) :
    StartBound (stateStep time noteName confident velocity rf s) T := by
  obtain ⟨hnotes, hcur, hpot⟩ := hs
  have hclose : ∀ m ∈ closeNote s.notes s.currentNote s.consecutiveFramesCount time,
      m.startTime < T := closeNote_startLt hnotes hcur
  rw [stateStep]
  split
  · split
    · -- same pitch as the last stable frame
      dsimp only
      split
      · -- stability threshold reached, confirm the note at the potential start
        rename_i ps hc3 hps
        refine ⟨hnotes, ?_, hpot⟩
        intro cn hcn
        simp only [Option.some.injEq] at hcn
        subst hcn
        exact hpot ps hps
      · split
        · rename_i cn hcn
          refine ⟨hnotes, ?_, hpot⟩
          intro cn2 hcn2
          simp only [Option.some.injEq] at hcn2
          subst hcn2
          exact hcur cn hcn
        · exact ⟨hnotes, hcur, hpot⟩
    · -- pitch change: close the previous note, restart tracking at time
      dsimp only
      refine ⟨hclose, by simp, ?_⟩
      intro ps hps
      simp only [Option.some.injEq] at hps
      subst hps
      exact ht
  · -- non-confident frame: close and reset
    exact ⟨hclose, by simp, by simp⟩

theorem processFrame_startLt {buf : List ℝ} {sr : ℚ} {fp : List ℝ → ℚ → ℝ × ℝ}
    {orms : ℝ} {s : DetectState} {i : ℕ} {T : ℚ}
    (ht : (i : ℚ) / sr < T) (hs : StartBound s T) :
    StartBound (processFrame buf sr fp orms s i) T := by
  rw [processFrame]
  exact stateStep_startLt ht hs

theorem foldl_processFrame_startLt {buf : List ℝ} {sr : ℚ} {fp : List ℝ → ℚ → ℝ × ℝ}
    {orms : ℝ} {T : ℚ} :
    ∀ (is : List ℕ) (s : DetectState), (∀ i ∈ is, (i : ℚ) / sr < T) → StartBound s T →
    StartBound (is.foldl (processFrame buf sr fp orms) s) T := by
  intro is
  induction is with
  | nil => intro s _ hs; exact hs
  | cons i rest ih =>
    intro s hts hs
    rw [List.foldl_cons]
    exact ih _ (fun j hj => hts j (List.mem_cons_of_mem _ hj))
      (processFrame_startLt (hts i (List.mem_cons_self _ _)) hs)

theorem detectNotes_startLt {buf : List ℝ} {sr : ℚ} {fp : List ℝ → ℚ → ℝ × ℝ} {T : ℚ}
    (ht : ∀ i ∈ noteFrameStarts buf.length, (i : ℚ) / sr < T) :
    ∀ n ∈ detectNotes buf sr fp, n.startTime < T := by
  intro n hn
  rw [detectNotes] at hn
  have hinit : StartBound initDetectState T := by
    refine ⟨by simp [initDetectState], by simp [initDetectState], by simp [initDetectState]⟩
  have hst := @foldl_processFrame_startLt buf sr fp (calculateRMS buf) T
    (noteFrameStarts buf.length) initDetectState ht hinit
  rcases closeNote_mem hn with h | ⟨cn, he, hsn⟩
  · exact hst.1 n h
  · rw [hsn]
    exact hst.2.1 cn he

theorem toNat_floor_le (x : ℚ) (hx : 0 ≤ x) : ((⌊x⌋.toNat : ℤ) : ℚ) ≤ x := by
  rcases le_or_lt 0 ⌊x⌋ with h | h
  · rw [Int.toNat_of_nonneg h]
    exact Int.floor_le x
  · rw [Int.toNat_of_nonpos (le_of_lt h)]
    exact_mod_cast hx

theorem createSyntheticNotes_startLt {duration : ℚ} (hd : duration ≤ 60) :
    ∀ n ∈ createSyntheticNotes duration, n.startTime < 60 := by
  intro n hn
  obtain ⟨i, hi, he⟩ := createSyntheticNotes_mem hn
  subst he
  show (i : ℚ) * (1/2) < 60
  have hfloor : ⌊duration / (1/2)⌋ ≤ 120 := by
    have : duration / (1/2) ≤ 120 := by linarith
    calc ⌊duration / (1/2)⌋ ≤ ⌊(120 : ℚ)⌋ := Int.floor_le_floor this
      _ = 120 := by norm_num
  have hcount : max 8 (⌊duration / (1/2)⌋.toNat) ≤ 120 := by
    refine max_le (by norm_num) ?_
    exact Int.toNat_le.2 (by exact_mod_cast hfloor)
  have hi119 : i ≤ 119 := by omega
  have : (i : ℚ) ≤ 119 := by exact_mod_cast hi119
  linarith

theorem pipelineNotes_mem_startLt {buffer : AudioBuffer} {fp : List ℝ → ℚ → ℝ × ℝ} {T : ℚ}
    (hdet : ∀ n ∈ detectNotes (mixDownToMono (processedBuffer buffer))
      (processedBuffer buffer).sampleRate fp, n.startTime < T)
    (hsyn : ∀ n ∈ createSyntheticNotes (processedBuffer buffer).duration, n.startTime < T) :
    ∀ n ∈ pipelineNotes buffer fp, n.startTime < T := by
  intro n hn
  simp only [pipelineNotes] at hn
  split at hn
  · exact hsyn n hn
  · exact hdet n hn

/-- Claim C8. A mono buffer of exactly 90 s duration is truncated: the
result has the truncated flag set, and every note of the result, detected
or synthetic, starts strictly before the 60 s mark. -/
theorem analyze_90s_truncation (samples : List ℝ) (sampleRate : ℚ)
    (findPitch : List ℝ → ℚ → ℝ × ℝ) (hsr : 0 < sampleRate)
    (hdur : ((samples.length : ℚ)) / sampleRate = 90) :
    (analyzeAudio (Except.ok ⟨[samples], sampleRate, samples.length⟩) findPitch).truncated
        = true ∧
    ∀ n ∈ (analyzeAudio (Except.ok ⟨[samples], sampleRate, samples.length⟩) findPitch).notes,
      n.startTime < 60 := by
  set B : AudioBuffer := ⟨[samples], sampleRate, samples.length⟩ with hB
  have hgt : B.duration > MAX_DURATION_SECONDS := by
    rw [AudioBuffer.duration, MAX_DURATION_SECONDS]
    show (samples.length : ℚ) / sampleRate > 60
    rw [hdur]
    norm_num
  set nl : ℕ := (⌊MAX_DURATION_SECONDS * sampleRate⌋).toNat with hnl
  have hproc : processedBuffer B = ⟨[samples.take nl], sampleRate, nl⟩ := by
    rw [processedBuffer, if_pos hgt, truncateAudioBuffer]
    rfl
  have hnl60 : (nl : ℚ) ≤ 60 * sampleRate := by
    have h0 : (0:ℚ) ≤ MAX_DURATION_SECONDS * sampleRate := by
      rw [MAX_DURATION_SECONDS]
      positivity
    have := toNat_floor_le (MAX_DURATION_SECONDS * sampleRate) h0
    rw [MAX_DURATION_SECONDS] at this
    exact_mod_cast this
  have hdur60 : (processedBuffer B).duration ≤ 60 := by
    rw [hproc, AudioBuffer.duration]
    show (nl : ℚ) / sampleRate ≤ 60
    rw [div_le_iff hsr]
    linarith
  have hdet : ∀ n ∈ detectNotes (mixDownToMono (processedBuffer B))
      (processedBuffer B).sampleRate findPitch, n.startTime < 60 := by
    rw [hproc]
    have hmono : mixDownToMono ⟨[samples.take nl], sampleRate, nl⟩ = samples.take nl := by
      rw [mixDownToMono]
      rfl
    rw [hmono]
    apply detectNotes_startLt
    intro i hi
    have hle := noteFrameStarts_le hi
    rw [List.length_take] at hle
    have hinl : i < nl := by omega
    rw [div_lt_iff hsr]
    have : (i : ℚ) < (nl : ℚ) := by exact_mod_cast hinl
    linarith
  have hpipe : ∀ n ∈ pipelineNotes B findPitch, n.startTime < 60 :=
    pipelineNotes_mem_startLt hdet (createSyntheticNotes_startLt hdur60)
  constructor
  · show (analyzeBody B findPitch).truncated = true
    simp only [analyzeBody]
    exact decide_eq_true hgt
  · show ∀ n ∈ (analyzeBody B findPitch).notes, n.startTime < 60
    simp only [analyzeBody]
    intro n hn
    split at hn
    · exact createSyntheticNotes_startLt hdur60 n hn
    · obtain ⟨n2, hn2, heq, _⟩ := mergeNotes_mem _ n hn
      rw [heq]
      exact hpipe n2 (filterNotes_mem (sortNotes_mem hn2)).1

/-- Witness for claim C8 at a concrete 90 s buffer (9 samples at a sample
rate of 0.1 Hz). -/
theorem analyze_90s_truncation_witness :
    (0 : ℚ) < 1/10 ∧
    (((List.replicate 9 (0:ℝ)).length : ℚ)) / (1/10) = 90 ∧
    ((analyzeAudio (Except.ok ⟨[List.replicate 9 (0:ℝ)], 1/10,
        (List.replicate 9 (0:ℝ)).length⟩) (fun _ _ => (0, 0))).truncated = true ∧
      ∀ n ∈ (analyzeAudio (Except.ok ⟨[List.replicate 9 (0:ℝ)], 1/10,
        (List.replicate 9 (0:ℝ)).length⟩) (fun _ _ => (0, 0))).notes, n.startTime < 60) :=
  ⟨by norm_num, by norm_num,
    analyze_90s_truncation (List.replicate 9 (0:ℝ)) (1/10) (fun _ _ => (0, 0))
      (by norm_num) (by norm_num)⟩

/-- The non-overlap ordering of claim C10: each note ends no later than the
next note starts. -/
def NoteOrd (a b : Note) : Prop := a.startTime + a.duration ≤ b.startTime

/-- The end time of the last emitted note, or 0 for an empty list. -/
def lastEnd (l : List Note) : ℚ :=
  ((l.getLast?).map (fun n => n.startTime + n.duration)).getD 0

theorem lastEnd_append (l : List Note) (n : Note) :
    lastEnd (l ++ [n]) = n.startTime + n.duration := by
  rw [lastEnd, List.getLast?_concat]
  rfl

theorem chain'_append_note {l : List Note} {n : Note} (hc : List.Chain' NoteOrd l)
    (hle : lastEnd l ≤ n.startTime) : List.Chain' NoteOrd (l ++ [n]) := by
  rw [List.chain'_append]
  refine ⟨hc, List.chain'_singleton n, ?_⟩
  intro x hx y hy
  simp only [List.head?_cons, Option.mem_def, Option.some.injEq] at hy
  subst hy
  rw [lastEnd, Option.mem_def.1 hx] at hle
  exact hle

/-- The detector-state invariant of claim C10: emitted notes are chained
without overlap, any tracked current note or potential start lies at or
after the end of the last emitted note, and that end is at most B (a lower
bound on all frame times still to be processed). -/
def ChainInv (s : DetectState) (B : ℚ) : Prop :=
  List.Chain' NoteOrd s.notes ∧
  (∀ cn, s.currentNote = some cn → lastEnd s.notes ≤ cn.startTime) ∧
  (∀ ps, s.potentialNoteStart = some ps → lastEnd s.notes ≤ ps) ∧
  lastEnd s.notes ≤ B

theorem ChainInv.mono {s : DetectState} {B B2 : ℚ} (h : ChainInv s B) (hB : B ≤ B2) :
    ChainInv s B2 :=
  ⟨h.1, h.2.1, h.2.2.1, le_trans h.2.2.2 hB⟩

theorem closeNote_chain {notes : List Note} {copt : Option CurrentNote} {c : ℕ} {t : ℚ}
    (hc : List.Chain' NoteOrd notes)
    (hcur : ∀ cn, copt = some cn → lastEnd notes ≤ cn.startTime) :
    List.Chain' NoteOrd (closeNote notes copt c t) := by
  rw [closeNote.eq_def]
  split
  · exact hc
  · rename_i cn
    split
    · split
      · exact chain'_append_note hc (hcur cn rfl)
      · exact hc
    · exact hc

theorem closeNote_lastEnd {notes : List Note} {copt : Option CurrentNote} {c : ℕ} {t : ℚ}
    (hend : lastEnd notes ≤ t) : lastEnd (closeNote notes copt c t) ≤ t := by
  rw [closeNote.eq_def]
  split
  · exact hend
  · rename_i cn
    split
    · split
      · rw [lastEnd_append]
        show cn.startTime + (t - cn.startTime) ≤ t
        ring_nf
        exact le_refl t
      · exact hend
    · exact hend

theorem stateStep_chainInv {time : ℚ} {noteName : String} {confident : Bool}
    {velocity : ℤ} {rf : List ℝ} {s : DetectState}
    (hs : ChainInv s time) :
    ChainInv (stateStep time noteName confident velocity rf s) time := by
  obtain ⟨hchain, hcur, hpot, hend⟩ := hs
  have hcchain : List.Chain' NoteOrd
      (closeNote s.notes s.currentNote s.consecutiveFramesCount time) :=
    closeNote_chain hchain hcur
  have hcend : lastEnd (closeNote s.notes s.currentNote s.consecutiveFramesCount time)
      ≤ time := closeNote_lastEnd hend
  rw [stateStep]
  split
  · split
    · -- same pitch: only the counter and the smoothing window change
      dsimp only
      split
      · rename_i ps hc3 hps
        refine ⟨hchain, ?_, hpot, hend⟩
        intro cn hcn
        simp only [Option.some.injEq] at hcn
        subst hcn
        exact hpot ps hps
      · split
        · rename_i cn hcn
          refine ⟨hchain, ?_, hpot, hend⟩
          intro cn2 hcn2
          simp only [Option.some.injEq] at hcn2
          subst hcn2
          exact hcur cn hcn
        · exact ⟨hchain, hcur, hpot, hend⟩
    · -- pitch change: close the previous note, restart tracking at time
      dsimp only
      refine ⟨hcchain, by simp, ?_, hcend⟩
      intro ps hps
      simp only [Option.some.injEq] at hps
      subst hps
      exact hcend
  · -- non-confident frame: close and reset
    exact ⟨hcchain, by simp, by simp, hcend⟩

theorem processFrame_chainInv {buf : List ℝ} {sr : ℚ} {fp : List ℝ → ℚ → ℝ × ℝ}
    {orms : ℝ} {s : DetectState} {i : ℕ}
    (hs : ChainInv s ((i : ℚ) / sr)) :
    ChainInv (processFrame buf sr fp orms s i) ((i : ℚ) / sr) := by
  rw [processFrame]
  exact stateStep_chainInv hs

theorem foldl_processFrame_chainInv {buf : List ℝ} {sr : ℚ} {fp : List ℝ → ℚ → ℝ × ℝ}
    {orms : ℝ} :
    ∀ (is : List ℕ) (s : DetectState) (B : ℚ), ChainInv s B →
    (∀ i ∈ is, B ≤ (i : ℚ) / sr) →
    List.Pairwise (fun (a b : ℕ) => (a : ℚ) / sr ≤ (b : ℚ) / sr) is →
    ∃ B2, ChainInv (is.foldl (processFrame buf sr fp orms) s) B2 := by
  intro is
  induction is with
  | nil => intro s B hs _ _; exact ⟨B, hs⟩
  | cons i rest ih =>
    intro s B hs hfirst hmono
    rw [List.foldl_cons]
    rw [List.pairwise_cons] at hmono
    exact ih _ ((i : ℚ) / sr)
      (processFrame_chainInv (hs.mono (hfirst i (List.mem_cons_self _ _))))
      (fun j hj => hmono.1 j hj) hmono.2

/-- Claim C10. For every buffer, sample rate above zero and behavior of the
external pitch detector, the notes emitted by detectNotes are
chronologically ordered and non-overlapping: each note's start time is at
least the previous note's start time plus its duration. -/
theorem detectNotes_nonoverlapping (samples : List ℝ) (sampleRate : ℚ)
    (findPitch : List ℝ → ℚ → ℝ × ℝ) (hsr : 0 < sampleRate) :
    List.Chain' (fun a b => a.startTime + a.duration ≤ b.startTime)
      (detectNotes samples sampleRate findPitch) := by
  rw [detectNotes]
  have hmono : List.Pairwise
      (fun (a b : ℕ) => (a : ℚ) / sampleRate ≤ (b : ℚ) / sampleRate)
      (noteFrameStarts samples.length) := by
    rw [noteFrameStarts, List.pairwise_map]
    apply List.Pairwise.imp ?_ (List.pairwise_lt_range _)
    intro a b hab
    have hc : ((a * 441 : ℕ) : ℚ) ≤ ((b * 441 : ℕ) : ℚ) := by
      exact_mod_cast Nat.mul_le_mul_right 441 (le_of_lt hab)
    exact div_le_div_of_nonneg_right hc (le_of_lt hsr)
  have hfirst : ∀ i ∈ noteFrameStarts samples.length, (0:ℚ) ≤ (i : ℚ) / sampleRate := by
    intro i _
    exact div_nonneg (by positivity) (le_of_lt hsr)
  have hinit : ChainInv initDetectState 0 := by
    refine ⟨by simp [initDetectState], by simp [initDetectState],
      by simp [initDetectState], ?_⟩
    simp [initDetectState, lastEnd]
  obtain ⟨B2, hinv⟩ := foldl_processFrame_chainInv (noteFrameStarts samples.length)
    initDetectState 0 hinit hfirst hmono
  exact closeNote_chain hinv.1 hinv.2.1

/-- Witness for claim C10 at the empty buffer with sample rate 1. -/
theorem detectNotes_nonoverlapping_witness :
    (0 : ℚ) < 1 ∧
    List.Chain' (fun a b => a.startTime + a.duration ≤ b.startTime)
      (detectNotes [] 1 (fun _ _ => (0, 0))) :=
  ⟨by norm_num, detectNotes_nonoverlapping [] 1 (fun _ _ => (0, 0)) (by norm_num)⟩

/-- The 24 key candidates in the iteration order of the detectKey loop:
roots 0..11 ascending, major before minor for each root. -/
def keyCands : List (ℕ × Bool) :=
  (List.range 12).flatMap (fun i => [(i, true), (i, false)])

/-- One comparison of the detectKey loop: replace the running best when the
candidate's correlation strictly exceeds the running maximum. -/
def keyUpd (corr : ℕ × Bool → ℚ) (st : WithBot ℚ × ℕ × Bool) (c : ℕ × Bool) :
    WithBot ℚ × ℕ × Bool :=
  if (corr c : WithBot ℚ) > st.1 then ((corr c : WithBot ℚ), c) else st

theorem keyLoop_eq_foldl (corr : ℕ → Bool → ℚ) :
    keyLoop corr = keyCands.foldl (keyUpd (fun c => corr c.1 c.2)) (⊥, 0, true) := by
  rw [keyLoop, keyCands]
  rw [List.flatMap_def, List.foldl_join, List.foldl_map]
  rfl

theorem keyFold_spec (corr : ℕ × Bool → ℚ) :
    ∀ (l : List (ℕ × Bool)), l ≠ [] → ∀ (init : ℕ × Bool),
    ∃ k, k < l.length ∧
      l.foldl (keyUpd corr) (⊥, init) =
        ((corr (l.getD k (0, true)) : WithBot ℚ), l.getD k (0, true)) ∧
      (∀ j, j < l.length → corr (l.getD j (0, true)) ≤ corr (l.getD k (0, true))) ∧
      (∀ j, j < k → corr (l.getD j (0, true)) < corr (l.getD k (0, true))) := by
  intro l
  induction l using List.reverseRecOn with
  | nil => intro h; exact absurd rfl h
  | append_singleton l2 x ih =>
    intro _ init
    rw [List.foldl_append, List.foldl_cons, List.foldl_nil]
    rcases eq_or_ne l2 [] with hl2 | hl2
    · subst hl2
      rw [List.foldl_nil]
      refine ⟨0, by simp, ?_, ?_, by omega⟩
      · rw [keyUpd, if_pos (WithBot.bot_lt_coe _)]
        rfl
      · intro j hj
        simp only [List.length_append, List.length_nil, List.length_cons] at hj
        interval_cases j
        exact le_refl _
    · obtain ⟨k, hk, hfold, hmax, hfirst⟩ := ih hl2 init
      rw [hfold, keyUpd]
      split_ifs with hgt
    -- the new candidate strictly improves: it becomes the first maximum
      · dsimp only at hgt
        rw [gt_iff_lt, WithBot.coe_lt_coe] at hgt
        refine ⟨l2.length, by simp, ?_, ?_, ?_⟩
        · rw [List.getD_append_right l2 [x] _ _ (le_refl _), Nat.sub_self]
          rfl
        · intro j hj
          simp only [List.length_append, List.length_cons, List.length_nil] at hj
          rw [List.getD_append_right l2 [x] _ _ (le_refl _), Nat.sub_self]
          rcases Nat.lt_or_ge j l2.length with hjl | hjl
          · rw [List.getD_append _ _ _ _ hjl]
            exact le_of_lt (lt_of_le_of_lt (hmax j hjl) hgt)
          · have : j = l2.length := by omega
            subst this
            rw [List.getD_append_right l2 [x] _ _ (le_refl _), Nat.sub_self]
        · intro j hj
          rw [List.getD_append_right l2 [x] _ _ (le_refl _), Nat.sub_self,
            List.getD_append _ _ _ _ hj]
          exact lt_of_le_of_lt (hmax j hj) hgt
    -- the new candidate does not improve: the previous best stays
      · dsimp only at hgt
        have hxle : corr (l2.getD k (0, true)) ≥ corr x := by
          by_contra hcon
          exact hgt (WithBot.coe_lt_coe.2 (lt_of_not_ge hcon))
        refine ⟨k, by simp only [List.length_append]; omega, ?_, ?_, ?_⟩
        · rw [List.getD_append _ _ _ _ hk]
        · intro j hj
          simp only [List.length_append, List.length_cons, List.length_nil] at hj
          rw [List.getD_append _ _ _ _ hk]
          rcases Nat.lt_or_ge j l2.length with hjl | hjl
          · rw [List.getD_append _ _ _ _ hjl]
            exact hmax j hjl
          · have : j = l2.length := by omega
            subst this
            rw [List.getD_append_right l2 [x] _ _ (le_refl _), Nat.sub_self]
            exact hxle
        · intro j hj
          rw [List.getD_append _ _ _ _ hk, List.getD_append _ _ _ _ (lt_trans hj hk)]
          exact hfirst j hj

/-- Claim C7. With usable notes, detectKey returns the candidate attaining
the maximum correlation over all 24 (root, mode) pairs, and on ties the
first candidate in iteration order wins, the order being roots 0..11
ascending with major checked before minor for each root (the order of
keyCands): every candidate is at most the winner, and every candidate
strictly earlier than the winner is strictly below it. -/
theorem detectKey_first_seen_argmax (notes : List Note)
    (h1 : notes.length ≠ 0) (h2 : totalWeight notes ≠ 0) :
    ∃ k, k < 24 ∧
      (∀ j, j < 24 →
        keyCorrelation notes (keyCands.getD j (0, true)).1 (keyCands.getD j (0, true)).2 ≤
        keyCorrelation notes (keyCands.getD k (0, true)).1 (keyCands.getD k (0, true)).2) ∧
      (∀ j, j < k →
        keyCorrelation notes (keyCands.getD j (0, true)).1 (keyCands.getD j (0, true)).2 <
        keyCorrelation notes (keyCands.getD k (0, true)).1 (keyCands.getD k (0, true)).2) ∧
      detectKey notes = NOTE_NAMES.getD (keyCands.getD k (0, true)).1 "" ++ " " ++
        (if (keyCands.getD k (0, true)).2 then "Major" else "Minor") := by
  have hlen : keyCands.length = 24 := by rfl
  have hne : keyCands ≠ [] := by
    intro h
    rw [h] at hlen
    simp at hlen
  obtain ⟨k, hk, hfold, hmax, hfirst⟩ :=
    keyFold_spec (fun c => keyCorrelation notes c.1 c.2) keyCands hne (0, true)
  rw [hlen] at hk
  refine ⟨k, hk, ?_, ?_, ?_⟩
  · intro j hj
    exact hmax j (by rw [hlen]; exact hj)
  · intro j hj
    exact hfirst j hj
  · simp only [detectKey]
    rw [if_neg h1, if_neg h2, keyLoop_eq_foldl, hfold]

/-- Witness for claim C7 at a one-note list holding a C4 quarter note. -/
theorem detectKey_first_seen_argmax_witness :
    ([⟨"C4", 0, 1, 80⟩] : List Note).length ≠ 0 ∧
    totalWeight [⟨"C4", 0, 1, 80⟩] ≠ 0 ∧
    (∃ k, k < 24 ∧
      (∀ j, j < 24 →
        keyCorrelation [⟨"C4", 0, 1, 80⟩] (keyCands.getD j (0, true)).1
            (keyCands.getD j (0, true)).2 ≤
        keyCorrelation [⟨"C4", 0, 1, 80⟩] (keyCands.getD k (0, true)).1
            (keyCands.getD k (0, true)).2) ∧
      (∀ j, j < k →
        keyCorrelation [⟨"C4", 0, 1, 80⟩] (keyCands.getD j (0, true)).1
            (keyCands.getD j (0, true)).2 <
        keyCorrelation [⟨"C4", 0, 1, 80⟩] (keyCands.getD k (0, true)).1
            (keyCands.getD k (0, true)).2) ∧
      detectKey [⟨"C4", 0, 1, 80⟩] =
        NOTE_NAMES.getD (keyCands.getD k (0, true)).1 "" ++ " " ++
          (if (keyCands.getD k (0, true)).2 then "Major" else "Minor")) := by
  have h1 : ([⟨"C4", 0, 1, 80⟩] : List Note).length ≠ 0 := by simp
  have h2 : totalWeight [⟨"C4", 0, 1, 80⟩] ≠ 0 := by
    have hclass : noteClass ⟨"C4", 0, 1, 80⟩ = some 0 := by decide
    rw [totalWeight]
    rw [List.filter_cons]
    rw [hclass]
    simp [noteWeight]
    norm_num
  exact ⟨h1, h2, detectKey_first_seen_argmax _ h1 h2⟩

theorem NOTE_NAMES_getD_ne (j : ℕ) (hj : j < 12) : NOTE_NAMES.getD j "" ≠ "" := by
  interval_cases j <;> decide

theorem string_append_ne_empty {s t : String} (hs : s ≠ "") : s ++ t ≠ "" := by
  intro hc
  apply hs
  have hlen := congrArg String.length hc
  rw [String.length_append] at hlen
  have hs0 : s.length = 0 := by
    have ht : ("" : String).length = 0 := rfl
    omega
  cases s with
  | mk data =>
    cases data with
    | nil => rfl
    | cons a l => simp [String.length] at hs0

theorem logb_lt_of_pow24 {q : ℝ} (hq : 0 < q) (h : q ^ (24:ℕ) < 2) :
    Real.logb 2 q < 1/24 := by
  rw [Real.logb_lt_iff_lt_rpow one_lt_two hq]
  have hrpow : ((2:ℝ) ^ ((1:ℝ)/24)) ^ (24:ℕ) = 2 := by
    rw [← Real.rpow_natCast ((2:ℝ) ^ ((1:ℝ)/24)) 24, ← Real.rpow_mul (by norm_num)]
    norm_num
  have h2 : q ^ (24:ℕ) < ((2:ℝ) ^ ((1:ℝ)/24)) ^ (24:ℕ) := by rw [hrpow]; exact h
  exact lt_of_pow_lt_pow_left 24 (le_of_lt (Real.rpow_pos_of_pos (by norm_num) _)) h2

theorem le_logb_of_pow24 {q : ℝ} (hq : 0 < q) (h : (2:ℝ) ≤ q ^ (24:ℕ)) :
    1/24 ≤ Real.logb 2 q := by
  rw [Real.le_logb_iff_rpow_le one_lt_two hq]
  by_contra hcon
  push_neg at hcon
  have hpow : q ^ (24:ℕ) < ((2:ℝ) ^ ((1:ℝ)/24)) ^ (24:ℕ) := by
    apply pow_lt_pow_left hcon (le_of_lt hq)
    norm_num
  have hrpow : ((2:ℝ) ^ ((1:ℝ)/24)) ^ (24:ℕ) = 2 := by
    rw [← Real.rpow_natCast ((2:ℝ) ^ ((1:ℝ)/24)) 24, ← Real.rpow_mul (by norm_num)]
    norm_num
  rw [hrpow] at hpow
  linarith

theorem logb_lt_of_pow8 {q : ℝ} (hq : 0 < q) (h : q ^ (8:ℕ) < 2) :
    Real.logb 2 q < 1/8 := by
  rw [Real.logb_lt_iff_lt_rpow one_lt_two hq]
  have hrpow : ((2:ℝ) ^ ((1:ℝ)/8)) ^ (8:ℕ) = 2 := by
    rw [← Real.rpow_natCast ((2:ℝ) ^ ((1:ℝ)/8)) 8, ← Real.rpow_mul (by norm_num)]
    norm_num
  have h2 : q ^ (8:ℕ) < ((2:ℝ) ^ ((1:ℝ)/8)) ^ (8:ℕ) := by rw [hrpow]; exact h
  exact lt_of_pow_lt_pow_left 8 (le_of_lt (Real.rpow_pos_of_pos (by norm_num) _)) h2

theorem round_midi_440 : round (12 * Real.logb 2 ((440:ℝ) / 440) + 69) = 69 := by
  have h1 : (440:ℝ) / 440 = 1 := by norm_num
  rw [h1, Real.logb_one, round_eq]
  norm_num

theorem round_midi_452 : round (12 * Real.logb 2 ((452:ℝ) / 440) + 69) = 69 := by
  have hq : (0:ℝ) < 452 / 440 := by norm_num
  have hup : Real.logb 2 ((452:ℝ) / 440) < 1/24 := by
    apply logb_lt_of_pow24 hq
    rw [div_pow, div_lt_iff (by positivity)]
    norm_num
  have hlo : 0 ≤ Real.logb 2 ((452:ℝ) / 440) :=
    Real.logb_nonneg one_lt_two (by norm_num)
  rw [round_eq, Int.floor_eq_iff]
  constructor
  · push_cast
    linarith
  · push_cast
    linarith

theorem round_midi_466 : round (12 * Real.logb 2 ((933/2:ℝ) / 440) + 69) = 70 := by
  have hq9 : ((933/2:ℝ)) / 440 = 933 / 880 := by norm_num
  have hq : (0:ℝ) < 933 / 880 := by norm_num
  have hlo : 1/24 ≤ Real.logb 2 ((933:ℝ) / 880) := by
    apply le_logb_of_pow24 hq
    rw [div_pow, le_div_iff (by positivity)]
    norm_num
  have hup : Real.logb 2 ((933:ℝ) / 880) < 1/8 := by
    apply logb_lt_of_pow8 hq
    rw [div_pow, div_lt_iff (by positivity)]
    norm_num
  rw [hq9, round_eq, Int.floor_eq_iff]
  constructor
  · push_cast
    linarith
  · push_cast
    linarith

theorem cents_eq_hundred_mul (f : ℝ) (hf : 0 < f) (r : ℤ) :
    1200 * Real.logb 2 (f / (440 * (2:ℝ) ^ (((r : ℝ) - 69) / 12))) =
      100 * ((12 * Real.logb 2 (f / 440) + 69) - (r : ℝ)) := by
  have hpow : (0:ℝ) < (2:ℝ) ^ (((r : ℝ) - 69) / 12) :=
    Real.rpow_pos_of_pos (by norm_num) _
  have hden : (440:ℝ) * (2:ℝ) ^ (((r : ℝ) - 69) / 12) ≠ 0 := by positivity
  rw [Real.logb_div (ne_of_gt hf) hden,
    Real.logb_mul (by norm_num) (ne_of_gt hpow),
    Real.logb_rpow (by norm_num) (by norm_num),
    Real.logb_div (ne_of_gt hf) (by norm_num)]
  ring

theorem cents_abs_le (f : ℝ) (hf : 0 < f) :
    |1200 * Real.logb 2 (f / (440 *
      (2:ℝ) ^ ((((round (12 * Real.logb 2 (f / 440) + 69) : ℤ) : ℝ) - 69) / 12)))| ≤ 50 := by
  rw [cents_eq_hundred_mul f hf]
  rw [abs_mul, abs_of_nonneg (by norm_num : (0:ℝ) ≤ 100)]
  have := abs_sub_round (12 * Real.logb 2 (f / 440) + 69)
  calc (100:ℝ) * |12 * Real.logb 2 (f / 440) + 69 -
        ((round (12 * Real.logb 2 (f / 440) + 69) : ℤ) : ℝ)| ≤ 100 * (1/2) := by
        apply mul_le_mul_of_nonneg_left this (by norm_num)
    _ = 50 := by norm_num

theorem frequencyToNoteName_eq (f : ℝ) (r : ℤ) (hf : 10 < f)
    (hr : round (12 * Real.logb 2 (f / 440) + 69) = r)
    (h21 : 21 ≤ r) (h108 : r ≤ 108) :
    frequencyToNoteName f =
      NOTE_NAMES.getD (r.toNat % 12) "" ++ toString (r.toNat / 12 - 1) := by
  have hc := cents_abs_le f (lt_trans (by norm_num) hf)
  rw [hr] at hc
  simp only [frequencyToNoteName, hr]
  rw [if_neg (not_le.2 hf), if_neg (by omega), if_neg (not_lt.2 hc)]

/-- Claim C9. The 50-cent gate of frequencyToNoteName never rejects a
frequency that passed the earlier checks, because the cents deviation is
100 times the rounding error of the MIDI number and so at most 50 in
absolute value: the name is non-empty exactly when the frequency exceeds
10 Hz and the rounded MIDI number lies in 21..108. -/
theorem frequencyToNoteName_ne_empty_iff (f : ℝ) :
    frequencyToNoteName f ≠ "" ↔
      (10 < f ∧ 21 ≤ round (12 * Real.logb 2 (f / 440) + 69) ∧
        round (12 * Real.logb 2 (f / 440) + 69) ≤ 108) := by
  constructor
  · intro hne
    simp only [frequencyToNoteName] at hne
    split_ifs at hne with hle hrange hcents
    · exact absurd rfl hne
    · exact absurd rfl hne
    · exact absurd rfl hne
    · push_neg at hle
      obtain ⟨hlo, hhi⟩ := not_or.1 hrange
      exact ⟨hle, by omega, by omega⟩
  · intro h
    obtain ⟨h10, h21, h108⟩ := h
    rw [frequencyToNoteName_eq f _ h10 rfl h21 h108]
    apply string_append_ne_empty
    apply NOTE_NAMES_getD_ne
    exact Nat.mod_lt _ (by norm_num)

/-- Claim C3 (counterexample). 466.5 Hz is about one cent above A#4
(466.164 Hz), not at the edge of the 50-cent gate: frequencyToNoteName
names it A#4 instead of returning the empty string claimed by the spec. -/
theorem frequencyToNoteName_466_not_empty :
    frequencyToNoteName (466.5 : ℝ) = "A#4" ∧ ("A#4" : String) ≠ "" := by
  constructor
  · have he : (466.5 : ℝ) = 933/2 := by norm_num
    rw [he, frequencyToNoteName_eq (933/2 : ℝ) 70 (by norm_num) round_midi_466
      (by norm_num) (by norm_num)]
    decide
  · decide

/-- Claim C3 (amended). The boundary test vectors of frequencyToNoteName:
440 Hz names A4, 5 Hz is rejected by the 10 Hz floor, 452 Hz (about 45
cents above A4) still names A4, and 466.5 Hz — which is about 101 cents
above A4 and one cent above A#4, not at the 50-cent boundary — names A#4
rather than returning empty. -/
theorem frequencyToNoteName_vectors :
    frequencyToNoteName (440 : ℝ) = "A4" ∧
    frequencyToNoteName (5 : ℝ) = "" ∧
    frequencyToNoteName (452 : ℝ) = "A4" ∧
    frequencyToNoteName (466.5 : ℝ) = "A#4" := by
  refine ⟨?_, ?_, ?_, ?_⟩
  · rw [frequencyToNoteName_eq (440 : ℝ) 69 (by norm_num) round_midi_440
      (by norm_num) (by norm_num)]
    decide
  · have h5 : (5:ℝ) ≤ 10 := by norm_num
    simp only [frequencyToNoteName]
    rw [if_pos h5]
  · rw [frequencyToNoteName_eq (452 : ℝ) 69 (by norm_num) round_midi_452
      (by norm_num) (by norm_num)]
    decide
  · have he : (466.5 : ℝ) = 933/2 := by norm_num
    rw [he, frequencyToNoteName_eq (933/2 : ℝ) 70 (by norm_num) round_midi_466
      (by norm_num) (by norm_num)]
    decide
